import Mathlib

/-!
Verification of the AVL tree component
(src/Data-Structures/Python/tree/avl_tree.py).

The Python class stores, at each node, a data value, left and right child
references (None when absent) and a cached height.  We embed the node graph
as an inductive tree; the AVLTree object is identified with its root
(None becomes the empty tree .nil).  Values are Ints (the repository's
examples use Python ints, a total order).
-/

namespace AvlSpec

/-- A node of the Python AVL tree: data, left child, right child, cached
height (the field order follows the Python constructor).  `nil` stands for
Python's None. -/
inductive Tree where
  | nil : Tree
  | node (data : Int) (left : Tree) (right : Tree) (height : Nat) : Tree
  deriving DecidableEq, Repr

open Tree

/-- Python get_height: 0 for None, otherwise the cached height field. -/
def get_height : Tree → Nat
  | .nil => 0
  | .node _ _ _ h => h

/-- Python get_balance: get_height(left) - get_height(right), 0 for None.
The subtraction is over Python ints, hence over Int. -/
def get_balance : Tree → Int
  | .nil => 0
  | .node _ l r _ => (get_height l : Int) - (get_height r : Int)

/-- The data field of a node.  Python would raise AttributeError on None
(`node.left.data` when node.left is None); every call site in the source
only reaches this when the tree is a node, so the default for nil is
irrelevant there. -/
def dataOf : Tree → Int
  | .nil => 0
  | .node d _ _ _ => d

/-- Python right_rotate: x = y.left; T2 = x.right; x.right = y;
y.left = T2; then recompute y.height, then x.height.  When y has no left
child Python would raise; the source only calls it when the balance factor
guarantees a left child, so the fallthrough branch is never reached from
the public operations (we make it the identity to stay total). -/
def right_rotate : Tree → Tree
  | .node yd (.node xd a T2 _) c _ =>
      let y2 := Tree.node yd T2 c (max (get_height T2) (get_height c) + 1)
      Tree.node xd a y2 (max (get_height a) (get_height y2) + 1)
  | t => t

/-- Python left_rotate, the mirror image of right_rotate. -/
def left_rotate : Tree → Tree
  | .node xd a (.node yd T2 c _) _ =>
      let x2 := Tree.node xd a T2 (max (get_height a) (get_height T2) + 1)
      Tree.node yd x2 c (max (get_height x2) (get_height c) + 1)
  | t => t

/-- Python insert_recursive: BST descent (strictly smaller goes left,
ties go right), height update, then the four insertion rebalancing cases,
keyed on the inserted value's relation to the child's data. -/
def insert_recursive : Tree → Int → Tree
  | .nil, data => Tree.node data .nil .nil 1
  | .node d l0 r0 _, data =>
    let l := if data < d then insert_recursive l0 data else l0
    let r := if data < d then r0 else insert_recursive r0 data
    let n := Tree.node d l r (max (get_height l) (get_height r) + 1)
    let balance := get_balance n
    if balance > 1 ∧ data < dataOf l then
      right_rotate n
    else if balance < -1 ∧ data > dataOf r then
      left_rotate n
    else if balance > 1 ∧ data > dataOf l then
      right_rotate (Tree.node d (left_rotate l) r (max (get_height l) (get_height r) + 1))
    else if balance < -1 ∧ data < dataOf r then
      left_rotate (Tree.node d l (right_rotate r) (max (get_height l) (get_height r) + 1))
    else n

/-- Python insert: self.root = insert_recursive(self.root, data). -/
def insert (t : Tree) (data : Int) : Tree := insert_recursive t data

/-- Python's successor search in delete: temp = node.right;
while temp.left: temp = temp.left; use temp.data.  Applied to the right
child, which the two-children branch guarantees is a node. -/
def minNodeData : Tree → Int
  | .nil => 0
  | .node d .nil _ _ => d
  | .node _ l _ _ => minNodeData l

/-- The common tail of Python delete_recursive: recompute node.height,
compute the balance factor, and apply the four deletion rebalancing cases,
keyed on the child's balance factor. -/
def rebalanceDel (d : Int) (l r : Tree) : Tree :=
  let n := Tree.node d l r (max (get_height l) (get_height r) + 1)
  let balance := get_balance n
  if balance > 1 ∧ get_balance l ≥ 0 then
    right_rotate n
  else if balance > 1 ∧ get_balance l < 0 then
    right_rotate (Tree.node d (left_rotate l) r (max (get_height l) (get_height r) + 1))
  else if balance < -1 ∧ get_balance r ≤ 0 then
    left_rotate n
  else if balance < -1 ∧ get_balance r > 0 then
    left_rotate (Tree.node d l (right_rotate r) (max (get_height l) (get_height r) + 1))
  else n

/-- Python delete_recursive: BST descent; a node with at most one child is
replaced by the other child (returning before any rebalancing); a node
with two children receives its in-order successor's data and the successor
is deleted from the right subtree; the three fallthrough paths share the
height-update/rebalance tail (rebalanceDel). -/
def delete_recursive : Tree → Int → Tree
  | .nil, _ => .nil
  | .node d l0 r0 _, data =>
    if data < d then
      rebalanceDel d (delete_recursive l0 data) r0
    else if data > d then
      rebalanceDel d l0 (delete_recursive r0 data)
    else
      match l0 with
      | .nil => r0
      | .node _ _ _ _ =>
        match r0 with
        | .nil => l0
        | .node _ _ _ _ =>
          rebalanceDel (minNodeData r0) l0 (delete_recursive r0 (minNodeData r0))

/-- Python delete: returns False immediately when the tree is empty,
otherwise reassigns the root and returns True (regardless of whether the
value occurred in the tree). -/
def delete (t : Tree) (data : Int) : Tree × Bool :=
  if t = Tree.nil then (t, false)
  else (delete_recursive t data, true)

/-- Python search_recursive: equal found, smaller left, otherwise right. -/
def search : Tree → Int → Bool
  | .nil, _ => false
  | .node d l r _, data =>
    if data = d then true
    else if data < d then search l data
    else search r data

/-- Python inorder_traversal (result list built by the nested visitor). -/
def inorder_traversal : Tree → List Int
  | .nil => []
  | .node d l r _ => inorder_traversal l ++ d :: inorder_traversal r

/-- Python preorder_traversal. -/
def preorder_traversal : Tree → List Int
  | .nil => []
  | .node d l r _ => d :: (preorder_traversal l ++ preorder_traversal r)

/-- Python postorder_traversal. -/
def postorder_traversal : Tree → List Int
  | .nil => []
  | .node d l r _ => postorder_traversal l ++ postorder_traversal r ++ [d]

/-- Python get_min: raises ValueError on the empty tree (modelled as
none), otherwise descends all-left from the root. -/
def get_min : Tree → Option Int
  | .nil => none
  | .node d .nil _ _ => some d
  | .node _ l _ _ => get_min l

/-- Python get_max: raises ValueError on the empty tree (modelled as
none), otherwise descends all-right from the root. -/
def get_max : Tree → Option Int
  | .nil => none
  | .node d _ .nil _ => some d
  | .node _ _ r _ => get_max r

/-- One public mutating operation on the tree. -/
inductive Op where
  | ins (v : Int) : Op
  | del (v : Int) : Op
  deriving DecidableEq, Repr

/-- Apply one operation to the root (delete discards the Bool result). -/
def runOp (t : Tree) : Op → Tree
  | .ins v => insert t v
  | .del v => (delete t v).1

/-- Run a sequence of operations starting from the empty tree. -/
def run (ops : List Op) : Tree := ops.foldl runOp .nil

/-- Insert a list of values into the empty tree, in list order. -/
def insertAll (l : List Int) : Tree := l.foldl insert .nil

/-- True height of a tree, ignoring the cached height fields. -/
def realHeight : Tree → Nat
  | .nil => 0
  | .node _ l r _ => max (realHeight l) (realHeight r) + 1

/-- Every cached height field equals the true height of its subtree. -/
def heightsOk : Tree → Bool
  | .nil => true
  | .node _ l r h =>
      (h = max (get_height l) (get_height r) + 1) && heightsOk l && heightsOk r

/-- The AVL balance invariant, in terms of the cached heights:
|height(left) - height(right)| ≤ 1 at every node. -/
def balancedB : Tree → Bool
  | .nil => true
  | .node _ l r _ =>
      (get_height l ≤ get_height r + 1) && (get_height r ≤ get_height l + 1)
        && balancedB l && balancedB r

/-- Every data value in the tree satisfies p. -/
def allTree (p : Int → Bool) : Tree → Bool
  | .nil => true
  | .node d l r _ => p d && allTree p l && allTree p r

/-- The BST ordering invariant of the source: left subtree strictly
smaller, right subtree greater or equal (ties route right on insert). -/
def isBST : Tree → Bool
  | .nil => true
  | .node d l r _ =>
      allTree (fun x => x < d) l && allTree (fun x => d ≤ x) r && isBST l && isBST r

/-- The full data-model invariant of the spec: correct cached heights,
balance factor in {-1,0,1} everywhere, and BST ordering. -/
def avlInv (t : Tree) : Bool := heightsOk t && balancedB t && isBST t

/-! ### Traversal contents: rotations and insert preserve the multiset -/

theorem inorder_right_rotate (t : Tree) :
    inorder_traversal (right_rotate t) = inorder_traversal t := by
  match t with
  | .nil => rfl
  | .node yd .nil c h => rfl
  | .node yd (.node xd a T2 h2) c h =>
      simp [right_rotate, inorder_traversal, List.append_assoc]

theorem inorder_left_rotate (t : Tree) :
    inorder_traversal (left_rotate t) = inorder_traversal t := by
  match t with
  | .nil => rfl
  | .node xd a .nil h => rfl
  | .node xd a (.node yd T2 c h2) h =>
      simp [left_rotate, inorder_traversal, List.append_assoc]

theorem inorder_insert_node (d : Int) (l0 r0 : Tree) (h : Nat) (x : Int) :
    inorder_traversal (insert_recursive (.node d l0 r0 h) x)
      = (if x < d then inorder_traversal (insert_recursive l0 x)
          else inorder_traversal l0)
        ++ d :: (if x < d then inorder_traversal r0
          else inorder_traversal (insert_recursive r0 x)) := by
  by_cases hx : x < d
  · rw [insert_recursive]
    simp only [if_pos hx]
    split_ifs <;>
      simp [inorder_right_rotate, inorder_left_rotate, inorder_traversal]
  · rw [insert_recursive]
    simp only [if_neg hx]
    split_ifs <;>
      simp [inorder_right_rotate, inorder_left_rotate, inorder_traversal]

theorem inorder_insert_perm (t : Tree) (x : Int) :
    (inorder_traversal (insert_recursive t x)).Perm (x :: inorder_traversal t) := by
  induction t with
  | nil => simp [insert_recursive, inorder_traversal]
  | node d l r h ihl ihr =>
      rw [inorder_insert_node]
      by_cases hx : x < d
      · simp only [if_pos hx, inorder_traversal]
        exact (ihl.append_right _).trans (by simp)
      · simp only [if_neg hx, inorder_traversal]
        exact (List.Perm.append_left _
          ((ihr.cons d).trans (List.Perm.swap x d _))).trans List.perm_middle

theorem preorder_perm_inorder (t : Tree) :
    (preorder_traversal t).Perm (inorder_traversal t) := by
  induction t with
  | nil => simp [preorder_traversal, inorder_traversal]
  | node d l r h ihl ihr =>
      simp only [preorder_traversal, inorder_traversal]
      exact ((ihl.append ihr).cons d).trans List.perm_middle.symm

theorem postorder_perm_inorder (t : Tree) :
    (postorder_traversal t).Perm (inorder_traversal t) := by
  induction t with
  | nil => simp [postorder_traversal, inorder_traversal]
  | node d l r h ihl ihr =>
      simp only [postorder_traversal, inorder_traversal]
      exact (List.perm_append_singleton d _).trans
        (((ihl.append ihr).cons d).trans List.perm_middle.symm)

/-! ### Ordering invariants

The data model (spec section 3) states the strict invariant: left subtree
strictly below the node's value, right subtree greater or equal (isBST
above).  The operations, however, only maintain the weaker per-node
ordering below (left ≤ value ≤ right), which is exactly equivalent to the
in-order traversal being non-decreasing: a left rotation can move a value
equal to the node's into its left subtree (e.g. inserting [5, 5, 6]).
We therefore develop the theory for the weak invariant and keep the strict
one only as the stated data-model hypothesis. -/

theorem allTree_iff (p : Int → Bool) (t : Tree) :
    allTree p t = true ↔ ∀ x ∈ inorder_traversal t, p x = true := by
  induction t with
  | nil => simp [allTree, inorder_traversal]
  | node d l r h ihl ihr =>
      simp only [allTree, inorder_traversal, Bool.and_eq_true, ihl, ihr]
      constructor
      · rintro ⟨⟨hd, hl⟩, hr⟩ x hx
        rcases List.mem_append.1 hx with hx | hx
        · exact hl x hx
        · rcases List.mem_cons.1 hx with rfl | hx
          · exact hd
          · exact hr x hx
      · intro hall
        refine ⟨⟨hall d (by simp), fun x hx => hall x (by simp [hx])⟩,
          fun x hx => hall x (by simp [hx])⟩

/-- The weak per-node ordering invariant: left subtree ≤ value ≤ right
subtree, everywhere. -/
def isBSTw : Tree → Bool
  | .nil => true
  | .node d l r _ =>
      allTree (fun x => x ≤ d) l && allTree (fun x => d ≤ x) r
        && isBSTw l && isBSTw r

theorem isBSTw_node_iff (d : Int) (l r : Tree) (h : Nat) :
    isBSTw (.node d l r h) = true ↔
      (∀ x ∈ inorder_traversal l, x ≤ d)
        ∧ (∀ x ∈ inorder_traversal r, d ≤ x)
        ∧ isBSTw l = true ∧ isBSTw r = true := by
  simp only [isBSTw, Bool.and_eq_true, allTree_iff, decide_eq_true_eq,
    and_assoc]

theorem mem_inorder_node (y d : Int) (l r : Tree) (h : Nat) :
    y ∈ inorder_traversal (.node d l r h)
      ↔ y ∈ inorder_traversal l ∨ y = d ∨ y ∈ inorder_traversal r := by
  simp [inorder_traversal]

theorem isBSTw_right_rotate (t : Tree) (hb : isBSTw t = true) :
    isBSTw (right_rotate t) = true := by
  match t with
  | .nil => exact hb
  | .node yd .nil c h => exact hb
  | .node yd (.node xd a T2 h2) c h =>
      rw [isBSTw_node_iff] at hb
      obtain ⟨hlt, hge, hbl, hbc⟩ := hb
      rw [isBSTw_node_iff] at hbl
      obtain ⟨hlta, hgeT2, hba, hbT2⟩ := hbl
      simp only [mem_inorder_node] at hlt
      have hxy : xd ≤ yd := hlt xd (Or.inr (Or.inl rfl))
      simp only [right_rotate]
      rw [isBSTw_node_iff]
      refine ⟨hlta, ?_, hba, ?_⟩
      · intro x hx
        rw [mem_inorder_node] at hx
        rcases hx with hx | rfl | hx
        · exact hgeT2 x hx
        · exact hxy
        · exact le_trans hxy (hge x hx)
      · rw [isBSTw_node_iff]
        exact ⟨fun x hx => hlt x (Or.inr (Or.inr hx)), hge, hbT2, hbc⟩

theorem isBSTw_left_rotate (t : Tree) (hb : isBSTw t = true) :
    isBSTw (left_rotate t) = true := by
  match t with
  | .nil => exact hb
  | .node xd a .nil h => exact hb
  | .node xd a (.node yd T2 c h2) h =>
      rw [isBSTw_node_iff] at hb
      obtain ⟨hlt, hge, hba, hbr⟩ := hb
      rw [isBSTw_node_iff] at hbr
      obtain ⟨hltT2, hgec, hbT2, hbc⟩ := hbr
      simp only [mem_inorder_node] at hge
      have hxy : xd ≤ yd := hge yd (Or.inr (Or.inl rfl))
      simp only [left_rotate]
      rw [isBSTw_node_iff]
      refine ⟨?_, hgec, ?_, hbc⟩
      · intro x hx
        rw [mem_inorder_node] at hx
        rcases hx with hx | rfl | hx
        · exact le_trans (hlt x hx) hxy
        · exact hxy
        · exact hltT2 x hx
      · rw [isBSTw_node_iff]
        exact ⟨hlt, fun x hx => hge x (Or.inl hx), hba, hbT2⟩

theorem isBSTw_node_left_rotate (d : Int) (l r : Tree) (k k2 : Nat)
    (hb : isBSTw (Tree.node d l r k) = true) :
    isBSTw (Tree.node d (left_rotate l) r k2) = true := by
  rw [isBSTw_node_iff] at hb ⊢
  obtain ⟨hlt, hge, hbl, hbr⟩ := hb
  exact ⟨by simpa [inorder_left_rotate] using hlt, hge,
    isBSTw_left_rotate l hbl, hbr⟩

theorem isBSTw_node_right_rotate (d : Int) (l r : Tree) (k k2 : Nat)
    (hb : isBSTw (Tree.node d l r k) = true) :
    isBSTw (Tree.node d l (right_rotate r) k2) = true := by
  rw [isBSTw_node_iff] at hb ⊢
  obtain ⟨hlt, hge, hbl, hbr⟩ := hb
  exact ⟨hlt, by simpa [inorder_right_rotate] using hge, hbl,
    isBSTw_right_rotate r hbr⟩

theorem isBSTw_insert (t : Tree) (x : Int) (hb : isBSTw t = true) :
    isBSTw (insert_recursive t x) = true := by
  induction t with
  | nil => simp [insert_recursive, isBSTw, allTree]
  | node d l r h ihl ihr =>
      rw [isBSTw_node_iff] at hb
      obtain ⟨hal, har, hbl, hbr⟩ := hb
      have hn : ∀ k : Nat, isBSTw (Tree.node d
          (if x < d then insert_recursive l x else l)
          (if x < d then r else insert_recursive r x) k) = true := by
        intro k
        rw [isBSTw_node_iff]
        by_cases hx : x < d <;> simp only [if_pos, if_neg, hx, ite_true,
          ite_false]
        · refine ⟨fun y hy => ?_, har, ihl hbl, hbr⟩
          rcases List.mem_cons.1 ((inorder_insert_perm l x).mem_iff.1 hy)
            with rfl | hy
          · omega
          · exact hal y hy
        · refine ⟨hal, fun y hy => ?_, hbl, ihr hbr⟩
          rcases List.mem_cons.1 ((inorder_insert_perm r x).mem_iff.1 hy)
            with rfl | hy
          · omega
          · exact har y hy
      rw [insert_recursive]
      by_cases hx : x < d <;> simp only [if_pos, if_neg, hx, ite_true,
        ite_false] <;> split_ifs
      all_goals
        first
          | exact isBSTw_right_rotate _ (by
              have h1 := hn (max (get_height (insert_recursive l x))
                (get_height r) + 1)
              have h2 := hn (max (get_height l)
                (get_height (insert_recursive r x)) + 1)
              simp only [if_pos, if_neg, hx, ite_true, ite_false] at h1 h2
              first
                | exact h1
                | exact h2
                | exact isBSTw_node_left_rotate _ _ _ _ _ h1
                | exact isBSTw_node_left_rotate _ _ _ _ _ h2)
          | exact isBSTw_left_rotate _ (by
              have h1 := hn (max (get_height (insert_recursive l x))
                (get_height r) + 1)
              have h2 := hn (max (get_height l)
                (get_height (insert_recursive r x)) + 1)
              simp only [if_pos, if_neg, hx, ite_true, ite_false] at h1 h2
              first
                | exact h1
                | exact h2
                | exact isBSTw_node_right_rotate _ _ _ _ _ h1
                | exact isBSTw_node_right_rotate _ _ _ _ _ h2)
          | exact (by
              have h1 := hn (max (get_height (insert_recursive l x))
                (get_height r) + 1)
              have h2 := hn (max (get_height l)
                (get_height (insert_recursive r x)) + 1)
              simp only [if_pos, if_neg, hx, ite_true, ite_false] at h1 h2
              first
                | exact h1
                | exact h2)

theorem isBSTw_sorted (t : Tree) (hb : isBSTw t = true) :
    (inorder_traversal t).Sorted (· ≤ ·) := by
  induction t with
  | nil => simp [inorder_traversal]
  | node d l r h ihl ihr =>
      rw [isBSTw_node_iff] at hb
      obtain ⟨hal, har, hbl, hbr⟩ := hb
      simp only [inorder_traversal, List.Sorted, List.pairwise_append,
        List.pairwise_cons]
      refine ⟨ihl hbl, ⟨har, ihr hbr⟩, fun a ha b hbmem => ?_⟩
      have h1 := hal a ha
      rcases List.mem_cons.1 hbmem with rfl | hbmem
      · exact h1
      · exact le_trans h1 (har b hbmem)

theorem isBSTw_insertAll_from (l : List Int) (t : Tree)
    (hb : isBSTw t = true) :
    isBSTw (l.foldl insert t) = true := by
  induction l generalizing t with
  | nil => exact hb
  | cons x l ih => exact ih _ (isBSTw_insert t x hb)

theorem inorder_insertAll_perm (l : List Int) (t : Tree) :
    (inorder_traversal (l.foldl insert t)).Perm (l ++ inorder_traversal t) := by
  induction l generalizing t with
  | nil => simp
  | cons x l ih =>
      refine (ih (insert t x)).trans ?_
      refine ((List.Perm.append_left l (inorder_insert_perm t x)).trans ?_)
      exact List.perm_middle

/-- C3: inserting any finite list of values into the empty tree and taking
the in-order traversal returns exactly the input sorted with duplicates
retained (the sorted arrangement of the multiset, here via insertionSort). -/
theorem c3_round_trip (l : List Int) :
    inorder_traversal (insertAll l) = l.insertionSort (· ≤ ·) := by
  have hperm : (inorder_traversal (insertAll l)).Perm l := by
    simpa [insertAll, inorder_traversal] using inorder_insertAll_perm l .nil
  have hsorted : (inorder_traversal (insertAll l)).Sorted (· ≤ ·) :=
    isBSTw_sorted _ (isBSTw_insertAll_from l .nil rfl)
  exact List.eq_of_perm_of_sorted
    (hperm.trans (l.perm_insertionSort (· ≤ ·)).symm) hsorted
    (List.sorted_insertionSort (· ≤ ·) l)

theorem search_iff_mem (t : Tree) (v : Int) (hb : isBSTw t = true) :
    search t v = true ↔ v ∈ inorder_traversal t := by
  induction t with
  | nil => simp [search, inorder_traversal]
  | node d l r h ihl ihr =>
      rw [isBSTw_node_iff] at hb
      obtain ⟨hal, har, hbl, hbr⟩ := hb
      rw [search]
      by_cases he : v = d
      · subst he
        simp [inorder_traversal]
      · by_cases hlt : v < d
        · simp only [if_neg he, if_pos hlt, ihl hbl, mem_inorder_node]
          constructor
          · exact fun hv => Or.inl hv
          · rintro (hv | rfl | hv)
            · exact hv
            · omega
            · have := har v hv
              omega
        · simp only [if_neg he, if_neg hlt, ihr hbr, mem_inorder_node]
          constructor
          · exact fun hv => Or.inr (Or.inr hv)
          · rintro (hv | rfl | hv)
            · have := hal v hv
              omega
            · omega
            · exact hv

/-- C10: on every tree state, the three traversals are permutations of one
another, hence have the same length and the same multiset of values. -/
theorem c10_traversals_agree (t : Tree) :
    (preorder_traversal t).Perm (inorder_traversal t)
      ∧ (postorder_traversal t).Perm (inorder_traversal t)
      ∧ (preorder_traversal t).length = (inorder_traversal t).length
      ∧ (postorder_traversal t).length = (inorder_traversal t).length := by
  refine ⟨preorder_perm_inorder t, postorder_perm_inorder t, ?_, ?_⟩
  · exact (preorder_perm_inorder t).length_eq
  · exact (postorder_perm_inorder t).length_eq

/-- C8: inserting [10, 20, 30, 40, 50, 25] into the empty tree gives
in-order traversal [10, 20, 25, 30, 40, 50], and the root data is 30. -/
theorem c8_basic_scenario :
    inorder_traversal (insertAll [10, 20, 30, 40, 50, 25])
        = [10, 20, 25, 30, 40, 50]
      ∧ dataOf (insertAll [10, 20, 30, 40, 50, 25]) = 30 := by
  decide

/-- C1: refuted as stated.  On the one-node tree {1} (where 2 is absent),
delete 2 removes nothing yet returns the success flag true, contradicting
"returns failure (false) when the tree is non-empty but the value is
absent" (the source returns True whenever the tree is non-empty). -/
theorem c1_delete_flag_bug :
    (delete (insertAll [1]) 2).2 = true
      ∧ search (insertAll [1]) 2 = false
      ∧ inorder_traversal (delete (insertAll [1]) 2).1
          = inorder_traversal (insertAll [1]) := by
  decide

/-- C6: refuted as stated.  Deleting the absent value 7 from the tree {5}
leaves the in-order traversal unchanged but returns true, not false. -/
theorem c6_delete_absent_bug :
    (delete (insertAll [5]) 7).2 = true
      ∧ search (insertAll [5]) 7 = false
      ∧ inorder_traversal (delete (insertAll [5]) 7).1
          = inorder_traversal (insertAll [5]) := by
  decide

/-- C2: refuted as stated.  After the insert sequence [2, 1, 1] (a
duplicate insert), the root's balance factor is 2: none of the four
insertion rebalancing cases covers an inserted value equal to the child's
data, so the tree is left unbalanced. -/
theorem c2_duplicate_insert_unbalanced :
    get_balance (run [Op.ins 2, Op.ins 1, Op.ins 1]) = 2
      ∧ balancedB (run [Op.ins 2, Op.ins 1, Op.ins 1]) = false := by
  decide

/-! ### Minimum and maximum -/

theorem minNodeData_spec (t : Tree) (hb : isBSTw t = true) (hne : t ≠ .nil) :
    minNodeData t ∈ inorder_traversal t
      ∧ ∀ x ∈ inorder_traversal t, minNodeData t ≤ x := by
  induction t with
  | nil => exact absurd rfl hne
  | node d l r h ihl ihr =>
      rw [isBSTw_node_iff] at hb
      obtain ⟨hal, har, hbl, hbr⟩ := hb
      match l with
      | .nil =>
          refine ⟨by simp [minNodeData, mem_inorder_node], fun x hx => ?_⟩
          rw [mem_inorder_node] at hx
          rcases hx with hx | rfl | hx
          · simp [inorder_traversal] at hx
          · simp [minNodeData]
          · simpa [minNodeData] using har x hx
      | .node dl ll lr hl =>
          obtain ⟨hmem, hmin⟩ := ihl hbl (by simp)
          have heq : minNodeData (.node d (.node dl ll lr hl) r h)
              = minNodeData (.node dl ll lr hl) := rfl
          rw [heq]
          have hled : minNodeData (.node dl ll lr hl) ≤ d := hal _ hmem
          refine ⟨by rw [mem_inorder_node]; exact Or.inl hmem, fun x hx => ?_⟩
          rw [mem_inorder_node] at hx
          rcases hx with hx | rfl | hx
          · exact hmin x hx
          · exact hled
          · exact le_trans hled (har x hx)

theorem get_min_spec (t : Tree) (hb : isBSTw t = true) :
    (get_min t = none ↔ t = .nil)
      ∧ ∀ m, get_min t = some m →
          m ∈ inorder_traversal t ∧ ∀ x ∈ inorder_traversal t, m ≤ x := by
  induction t with
  | nil => simp [get_min]
  | node d l r h ihl ihr =>
      rw [isBSTw_node_iff] at hb
      obtain ⟨hal, har, hbl, hbr⟩ := hb
      match l with
      | .nil =>
          refine ⟨by simp [get_min], fun m hm => ?_⟩
          have hmd : d = m := by simpa [get_min] using hm
          subst hmd
          refine ⟨by simp [mem_inorder_node], fun x hx => ?_⟩
          rw [mem_inorder_node] at hx
          rcases hx with hx | rfl | hx
          · simp [inorder_traversal] at hx
          · exact le_refl _
          · exact har x hx
      | .node dl ll lr hl =>
          obtain ⟨hnone, hspec⟩ := ihl hbl
          have heq : get_min (.node d (.node dl ll lr hl) r h)
              = get_min (.node dl ll lr hl) := rfl
          rw [heq]
          constructor
          · simp only [hnone]
            simp
          · intro m hm
            obtain ⟨hmem, hmin⟩ := hspec m hm
            have hled : m ≤ d := hal _ hmem
            refine ⟨by rw [mem_inorder_node]; exact Or.inl hmem,
              fun x hx => ?_⟩
            rw [mem_inorder_node] at hx
            rcases hx with hx | rfl | hx
            · exact hmin x hx
            · exact hled
            · exact le_trans hled (har x hx)

theorem get_max_spec (t : Tree) (hb : isBSTw t = true) :
    (get_max t = none ↔ t = .nil)
      ∧ ∀ m, get_max t = some m →
          m ∈ inorder_traversal t ∧ ∀ x ∈ inorder_traversal t, x ≤ m := by
  induction t with
  | nil => simp [get_max]
  | node d l r h ihl ihr =>
      rw [isBSTw_node_iff] at hb
      obtain ⟨hal, har, hbl, hbr⟩ := hb
      match r with
      | .nil =>
          refine ⟨by simp [get_max], fun m hm => ?_⟩
          have hmd : d = m := by simpa [get_max] using hm
          subst hmd
          refine ⟨by simp [mem_inorder_node], fun x hx => ?_⟩
          rw [mem_inorder_node] at hx
          rcases hx with hx | rfl | hx
          · exact hal x hx
          · exact le_refl _
          · simp [inorder_traversal] at hx
      | .node dr rl rr hr =>
          obtain ⟨hnone, hspec⟩ := ihr hbr
          have heq : get_max (.node d l (.node dr rl rr hr) h)
              = get_max (.node dr rl rr hr) := rfl
          rw [heq]
          constructor
          · simp only [hnone]
            simp
          · intro m hm
            obtain ⟨hmem, hmax⟩ := hspec m hm
            have hged : d ≤ m := har _ hmem
            refine ⟨by rw [mem_inorder_node]; exact Or.inr (Or.inr hmem),
              fun x hx => ?_⟩
            rw [mem_inorder_node] at hx
            rcases hx with hx | rfl | hx
            · exact le_trans (hal x hx) hged
            · exact hged
            · exact hmax x hx

/-- C7: on a tree satisfying the ordering invariant, get_min and get_max
return none (the modelled EmptyTree error) exactly when the tree has no
root; on a non-empty tree each returns, without failing, the minimum
(resp. maximum) stored value. -/
theorem c7_min_max (t : Tree) (hb : isBSTw t = true) :
    (get_min t = none ↔ t = Tree.nil)
      ∧ (get_max t = none ↔ t = Tree.nil)
      ∧ (∀ m, get_min t = some m →
          m ∈ inorder_traversal t ∧ ∀ x ∈ inorder_traversal t, m ≤ x)
      ∧ (∀ m, get_max t = some m →
          m ∈ inorder_traversal t ∧ ∀ x ∈ inorder_traversal t, x ≤ m) :=
  ⟨(get_min_spec t hb).1, (get_max_spec t hb).1,
    (get_min_spec t hb).2, (get_max_spec t hb).2⟩

/-- Witness for c7_min_max at the concrete tree from inserting
[10, 20, 30]: its get_min is some 10, which the theorem then shows is a
member bounding every stored value from below. -/
theorem c7_min_max_witness :
    isBSTw (insertAll [10, 20, 30]) = true
      ∧ get_min (insertAll [10, 20, 30]) = some 10
      ∧ (10 : Int) ∈ inorder_traversal (insertAll [10, 20, 30])
      ∧ ∀ x ∈ inorder_traversal (insertAll [10, 20, 30]), (10 : Int) ≤ x := by
  refine ⟨by decide, by decide, ?_, ?_⟩
  · exact ((c7_min_max (insertAll [10, 20, 30]) (by decide)).2.2.1 10
      (by decide)).1
  · exact ((c7_min_max (insertAll [10, 20, 30]) (by decide)).2.2.1 10
      (by decide)).2

/-! ### Contents of the tree as a multiset; delete's effect on it -/

/-- The multiset of stored values (the in-order traversal, unordered). -/
def contents (t : Tree) : Multiset Int := (inorder_traversal t : Multiset Int)

theorem contents_node (d : Int) (l r : Tree) (h : Nat) :
    contents (.node d l r h) = contents l + (d ::ₘ contents r) := by
  simp [contents, inorder_traversal]

theorem mem_contents_iff (x : Int) (t : Tree) :
    x ∈ contents t ↔ x ∈ inorder_traversal t := Multiset.mem_coe

theorem inorder_rebalanceDel (d : Int) (l r : Tree) :
    inorder_traversal (rebalanceDel d l r)
      = inorder_traversal l ++ d :: inorder_traversal r := by
  simp only [rebalanceDel]
  split_ifs <;>
    simp [inorder_right_rotate, inorder_left_rotate, inorder_traversal]

theorem contents_rebalanceDel (d : Int) (l r : Tree) :
    contents (rebalanceDel d l r) = contents l + (d ::ₘ contents r) := by
  simp [contents, inorder_rebalanceDel]

theorem isBSTw_rebalanceDel (d : Int) (l r : Tree)
    (hl : ∀ x ∈ inorder_traversal l, x ≤ d)
    (hr : ∀ x ∈ inorder_traversal r, d ≤ x)
    (hbl : isBSTw l = true) (hbr : isBSTw r = true) :
    isBSTw (rebalanceDel d l r) = true := by
  have hn : ∀ k : Nat, isBSTw (Tree.node d l r k) = true := by
    intro k
    rw [isBSTw_node_iff]
    exact ⟨hl, hr, hbl, hbr⟩
  simp only [rebalanceDel]
  split_ifs
  · exact isBSTw_right_rotate _ (hn _)
  · exact isBSTw_right_rotate _ (isBSTw_node_left_rotate d l r 0 _ (hn 0))
  · exact isBSTw_left_rotate _ (hn _)
  · exact isBSTw_left_rotate _ (isBSTw_node_right_rotate d l r 0 _ (hn 0))
  · exact hn _

theorem delete_recursive_node (d : Int) (l r : Tree) (h : Nat) (v : Int) :
    delete_recursive (.node d l r h) v =
      if v < d then rebalanceDel d (delete_recursive l v) r
      else if v > d then rebalanceDel d l (delete_recursive r v)
      else match l with
        | .nil => r
        | .node _ _ _ _ =>
          match r with
          | .nil => l
          | .node _ _ _ _ =>
            rebalanceDel (minNodeData r) l
              (delete_recursive r (minNodeData r)) := rfl

theorem delete_recursive_spec (t : Tree) (v : Int) (hb : isBSTw t = true) :
    isBSTw (delete_recursive t v) = true
      ∧ contents (delete_recursive t v) = (contents t).erase v := by
  induction t generalizing v with
  | nil =>
      refine ⟨hb, ?_⟩
      simp [delete_recursive, contents, inorder_traversal]
  | node d l r h ihl ihr =>
      rw [isBSTw_node_iff] at hb
      obtain ⟨hal, har, hbl, hbr⟩ := hb
      rw [delete_recursive_node]
      by_cases hv1 : v < d
      · simp only [if_pos hv1]
        obtain ⟨hbst1, hcon1⟩ := ihl v hbl
        refine ⟨isBSTw_rebalanceDel d _ r (fun x hx => ?_) har hbst1 hbr, ?_⟩
        · have hx2 : x ∈ contents l := Multiset.mem_of_mem_erase
            (hcon1 ▸ (mem_contents_iff x _).2 hx)
          exact hal x ((mem_contents_iff x l).1 hx2)
        · rw [contents_rebalanceDel, hcon1, contents_node]
          by_cases hvl : v ∈ contents l
          · rw [Multiset.erase_add_left_pos _ hvl]
          · rw [Multiset.erase_of_not_mem hvl,
              Multiset.erase_of_not_mem (fun hmem => ?_)]
            rcases Multiset.mem_add.1 hmem with hmem | hmem
            · exact hvl hmem
            · rcases Multiset.mem_cons.1 hmem with rfl | hmem
              · omega
              · have := har v ((mem_contents_iff v r).1 hmem)
                omega
      · by_cases hv2 : v > d
        · simp only [if_neg hv1, if_pos hv2]
          obtain ⟨hbst1, hcon1⟩ := ihr v hbr
          refine ⟨isBSTw_rebalanceDel d l _ hal (fun x hx => ?_) hbl hbst1,
            ?_⟩
          · have hx2 : x ∈ contents r := Multiset.mem_of_mem_erase
              (hcon1 ▸ (mem_contents_iff x _).2 hx)
            exact har x ((mem_contents_iff x r).1 hx2)
          · rw [contents_rebalanceDel, hcon1, contents_node]
            have hvnl : v ∉ contents l := fun hmem => by
              have := hal v ((mem_contents_iff v l).1 hmem)
              omega
            by_cases hvr : v ∈ contents r
            · rw [Multiset.erase_add_right_pos _
                  (Multiset.mem_cons_of_mem hvr),
                Multiset.erase_cons_tail _ (fun hdv => by omega)]
            · rw [Multiset.erase_of_not_mem hvr,
                Multiset.erase_of_not_mem (fun hmem => ?_)]
              rcases Multiset.mem_add.1 hmem with hmem | hmem
              · exact hvnl hmem
              · rcases Multiset.mem_cons.1 hmem with rfl | hmem
                · omega
                · exact hvr hmem
        · have hvd : v = d := by omega
          subst hvd
          simp only [if_neg hv1, if_neg hv2]
          cases l with
          | nil =>
              refine ⟨hbr, ?_⟩
              rw [contents_node]
              simp [contents, inorder_traversal]
          | node dl ll lr hl =>
              cases r with
              | nil =>
                  refine ⟨hbl, ?_⟩
                  conv_rhs => rw [contents_node]
                  rw [show contents Tree.nil = 0 from rfl]
                  rw [Multiset.erase_add_right_pos _
                    (Multiset.mem_cons_self v 0)]
                  rw [Multiset.erase_cons_head]
                  simp
              | node dr rl rr hr0 =>
                  obtain ⟨htd_mem, htd_min⟩ :=
                    minNodeData_spec (.node dr rl rr hr0) hbr (by simp)
                  obtain ⟨hbst2, hcon2⟩ :=
                    ihr (minNodeData (.node dr rl rr hr0)) hbr
                  refine ⟨isBSTw_rebalanceDel _ _ _ (fun x hx => ?_)
                      (fun x hx => ?_) hbl hbst2, ?_⟩
                  · exact le_trans (hal x hx) (har _ htd_mem)
                  · have hx2 : x ∈ contents (.node dr rl rr hr0) :=
                      Multiset.mem_of_mem_erase
                        (hcon2 ▸ (mem_contents_iff x _).2 hx)
                    exact htd_min x ((mem_contents_iff x _).1 hx2)
                  · rw [contents_rebalanceDel, hcon2]
                    conv_rhs => rw [contents_node]
                    rw [Multiset.cons_erase
                      ((mem_contents_iff _ _).2 htd_mem)]
                    rw [Multiset.erase_add_right_pos _
                      (Multiset.mem_cons_self v _)]
                    rw [Multiset.erase_cons_head]

theorem delete_spec (t : Tree) (v : Int) (hb : isBSTw t = true) :
    isBSTw (delete t v).1 = true
      ∧ contents (delete t v).1 = (contents t).erase v := by
  rw [delete]
  split_ifs with hnil
  · subst hnil
    exact ⟨hb, by simp [contents, inorder_traversal]⟩
  · exact delete_recursive_spec t v hb

theorem contents_insert (t : Tree) (v : Int) :
    contents (insert t v) = v ::ₘ contents t := by
  simpa [contents] using (Multiset.coe_eq_coe.2 (inorder_insert_perm t v))

/-- The abstract effect of one operation on the multiset of stored
values: insert adds one occurrence, delete removes one occurrence of the
value when present (and does nothing otherwise). -/
def opStep (m : Multiset Int) : Op → Multiset Int
  | .ins v => v ::ₘ m
  | .del v => m.erase v

/-- The multiset of values inserted and not subsequently removed, over a
whole operation sequence started from the empty tree. -/
def expectedContents (ops : List Op) : Multiset Int := ops.foldl opStep 0

theorem run_from_spec (ops : List Op) (t : Tree) (hb : isBSTw t = true) :
    isBSTw (ops.foldl runOp t) = true
      ∧ contents (ops.foldl runOp t) = ops.foldl opStep (contents t) := by
  induction ops generalizing t with
  | nil => exact ⟨hb, rfl⟩
  | cons op ops ih =>
      match op with
      | .ins v =>
          simp only [List.foldl_cons, runOp, opStep]
          have h1 := ih (insert t v) (isBSTw_insert t v hb)
          rwa [contents_insert] at h1
      | .del v =>
          simp only [List.foldl_cons, runOp, opStep]
          have h1 := ih (delete t v).1 (delete_spec t v hb).1
          rwa [(delete_spec t v hb).2] at h1

theorem run_spec (ops : List Op) :
    isBSTw (run ops) = true ∧ contents (run ops) = expectedContents ops := by
  have h := run_from_spec ops .nil rfl
  rwa [show contents .nil = 0 from rfl] at h

theorem mem_expected_aux (ops : List Op) (m : Multiset Int) (v : Int)
    (hv : v ∈ ops.foldl opStep m) : v ∈ m ∨ Op.ins v ∈ ops := by
  induction ops generalizing m with
  | nil => exact Or.inl hv
  | cons op ops ih =>
      rcases ih (opStep m op) hv with h1 | h1
      · match op with
        | .ins w =>
            rcases Multiset.mem_cons.1 h1 with rfl | h2
            · exact Or.inr (by simp)
            · exact Or.inl h2
        | .del w => exact Or.inl (Multiset.mem_of_mem_erase h1)
      · exact Or.inr (List.mem_cons_of_mem _ h1)

/-- C4: over any finite operation sequence started from the empty tree,
search finds exactly the values inserted and not all subsequently removed
(membership in the running multiset), and in particular returns false for
any value never inserted. -/
theorem c4_search_correct (ops : List Op) (v : Int) :
    (v ∈ expectedContents ops → search (run ops) v = true)
      ∧ (Op.ins v ∉ ops → search (run ops) v = false) := by
  obtain ⟨hbst, hcon⟩ := run_spec ops
  constructor
  · intro hv
    rw [search_iff_mem _ _ hbst, ← mem_contents_iff, hcon]
    exact hv
  · intro hv
    rw [← Bool.not_eq_true, search_iff_mem _ _ hbst, ← mem_contents_iff,
      hcon]
    intro hmem
    rcases mem_expected_aux ops 0 v hmem with h1 | h1
    · simp at h1
    · exact hv h1

/-- Witness for c4_search_correct on the sequence insert 3, insert 5,
delete 3: the value 5 remains and is found; the never-inserted value 4 is
not found. -/
theorem c4_search_correct_witness :
    search (run [Op.ins 3, Op.ins 5, Op.del 3]) 5 = true
      ∧ search (run [Op.ins 3, Op.ins 5, Op.del 3]) 4 = false :=
  ⟨(c4_search_correct [Op.ins 3, Op.ins 5, Op.del 3] 5).1 (by decide),
   (c4_search_correct [Op.ins 3, Op.ins 5, Op.del 3] 4).2 (by decide)⟩

/-! ### Height bookkeeping and the balance invariant under delete -/

theorem get_height_nil : get_height .nil = 0 := rfl

theorem get_height_node (d : Int) (l r : Tree) (h : Nat) :
    get_height (.node d l r h) = h := rfl

theorem get_balance_node (d : Int) (l r : Tree) (h : Nat) :
    get_balance (.node d l r h) = (get_height l : Int) - get_height r := rfl

theorem heightsOk_node_iff (d : Int) (l r : Tree) (h : Nat) :
    heightsOk (.node d l r h) = true ↔
      h = max (get_height l) (get_height r) + 1
        ∧ heightsOk l = true ∧ heightsOk r = true := by
  simp [heightsOk, Bool.and_eq_true, and_assoc]

theorem balancedB_node_iff (d : Int) (l r : Tree) (h : Nat) :
    balancedB (.node d l r h) = true ↔
      get_height l ≤ get_height r + 1 ∧ get_height r ≤ get_height l + 1
        ∧ balancedB l = true ∧ balancedB r = true := by
  simp [balancedB, Bool.and_eq_true, and_assoc]

/-- The deletion rebalancing step: on children that are valid AVL subtrees
whose heights differ by at most two, it restores the balance invariant,
and the resulting height is max+1 or max of the children's heights, with
exactly max+1 when the children already differed by at most one. -/
theorem rebalanceDel_spec (d : Int) (l r : Tree)
    (hokl : heightsOk l = true) (hokr : heightsOk r = true)
    (hbll : balancedB l = true) (hblr : balancedB r = true)
    (hd1 : get_height l ≤ get_height r + 2)
    (hd2 : get_height r ≤ get_height l + 2) :
    heightsOk (rebalanceDel d l r) = true
      ∧ balancedB (rebalanceDel d l r) = true
      ∧ max (get_height l) (get_height r) ≤ get_height (rebalanceDel d l r)
      ∧ get_height (rebalanceDel d l r)
          ≤ max (get_height l) (get_height r) + 1
      ∧ (get_height l ≤ get_height r + 1 → get_height r ≤ get_height l + 1 →
          get_height (rebalanceDel d l r)
            = max (get_height l) (get_height r) + 1) := by
  simp only [rebalanceDel]
  split_ifs with h1 h2 h3 h4
  · -- Left-Left: right_rotate on the node
    obtain ⟨hb1, hb2⟩ := h1
    rw [get_balance_node] at hb1
    cases l with
    | nil =>
        exfalso
        simp only [get_height_node, get_height_nil] at hb1
        omega
    | node dl ll lr hl0 =>
        rw [heightsOk_node_iff] at hokl
        obtain ⟨hleq, hokll, hoklr⟩ := hokl
        rw [balancedB_node_iff] at hbll
        obtain ⟨hbb1, hbb2, hbcll, hbclr⟩ := hbll
        rw [get_balance_node] at hb2
        simp only [get_height_node, get_height_nil] at *
        simp only [right_rotate, get_height_node, get_height_nil]
        refine ⟨?_, ?_, ?_, ?_, ?_⟩
        · rw [heightsOk_node_iff]
          refine ⟨by simp only [get_height_node, get_height_nil], hokll, ?_⟩
          rw [heightsOk_node_iff]
          exact ⟨rfl, hoklr, hokr⟩
        · rw [balancedB_node_iff]
          refine ⟨?_, ?_, hbcll, ?_⟩
          · try simp only [get_height_node, get_height_nil]
            omega
          · try simp only [get_height_node, get_height_nil]
            omega
          · rw [balancedB_node_iff]
            exact ⟨by omega, by omega, hbclr, hblr⟩
        · try simp only [get_height_node, get_height_nil]
          omega
        · try simp only [get_height_node, get_height_nil]
          omega
        · try simp only [get_height_node, get_height_nil]
          omega
  · -- Left-Right: left_rotate the left child, then right_rotate
    obtain ⟨hb1, hb2⟩ := h2
    rw [get_balance_node] at hb1
    cases l with
    | nil =>
        exfalso
        simp only [get_height_node, get_height_nil] at hb1
        omega
    | node dl ll lr hl0 =>
        rw [heightsOk_node_iff] at hokl
        obtain ⟨hleq, hokll, hoklr⟩ := hokl
        rw [balancedB_node_iff] at hbll
        obtain ⟨hbb1, hbb2, hbcll, hbclr⟩ := hbll
        rw [get_balance_node] at hb2
        cases lr with
        | nil =>
            exfalso
            simp only [get_height_node, get_height_nil] at hb2
            omega
        | node dlr u w hlr0 =>
            rw [heightsOk_node_iff] at hoklr
            obtain ⟨hlreq, hoku, hokw⟩ := hoklr
            rw [balancedB_node_iff] at hbclr
            obtain ⟨hbu1, hbu2, hbcu, hbcw⟩ := hbclr
            simp only [get_height_node, get_height_nil] at *
            simp only [left_rotate, right_rotate, get_height_node, get_height_nil]
            refine ⟨?_, ?_, ?_, ?_, ?_⟩
            · rw [heightsOk_node_iff]
              refine ⟨by simp only [get_height_node, get_height_nil], ?_, ?_⟩
              · rw [heightsOk_node_iff]
                exact ⟨rfl, hokll, hoku⟩
              · rw [heightsOk_node_iff]
                exact ⟨rfl, hokw, hokr⟩
            · rw [balancedB_node_iff]
              refine ⟨?_, ?_, ?_, ?_⟩
              · try simp only [get_height_node, get_height_nil]
                omega
              · try simp only [get_height_node, get_height_nil]
                omega
              · rw [balancedB_node_iff]
                exact ⟨by omega, by omega, hbcll, hbcu⟩
              · rw [balancedB_node_iff]
                exact ⟨by omega, by omega, hbcw, hblr⟩
            · try simp only [get_height_node, get_height_nil]
              omega
            · try simp only [get_height_node, get_height_nil]
              omega
            · try simp only [get_height_node, get_height_nil]
              omega
  · -- Right-Right: left_rotate on the node
    obtain ⟨hb1, hb2⟩ := h3
    rw [get_balance_node] at hb1
    cases r with
    | nil =>
        exfalso
        simp only [get_height_node, get_height_nil] at hb1
        omega
    | node dr rl rr hr0 =>
        rw [heightsOk_node_iff] at hokr
        obtain ⟨hreq, hokrl, hokrr⟩ := hokr
        rw [balancedB_node_iff] at hblr
        obtain ⟨hbb1, hbb2, hbcrl, hbcrr⟩ := hblr
        rw [get_balance_node] at hb2
        simp only [get_height_node, get_height_nil] at *
        simp only [left_rotate, get_height_node, get_height_nil]
        refine ⟨?_, ?_, ?_, ?_, ?_⟩
        · rw [heightsOk_node_iff]
          refine ⟨by simp only [get_height_node, get_height_nil], ?_, hokrr⟩
          rw [heightsOk_node_iff]
          exact ⟨rfl, hokl, hokrl⟩
        · rw [balancedB_node_iff]
          refine ⟨?_, ?_, ?_, hbcrr⟩
          · try simp only [get_height_node, get_height_nil]
            omega
          · try simp only [get_height_node, get_height_nil]
            omega
          · rw [balancedB_node_iff]
            exact ⟨by omega, by omega, hbll, hbcrl⟩
        · try simp only [get_height_node, get_height_nil]
          omega
        · try simp only [get_height_node, get_height_nil]
          omega
        · try simp only [get_height_node, get_height_nil]
          omega
  · -- Right-Left: right_rotate the right child, then left_rotate
    obtain ⟨hb1, hb2⟩ := h4
    rw [get_balance_node] at hb1
    cases r with
    | nil =>
        exfalso
        simp only [get_height_node, get_height_nil] at hb1
        omega
    | node dr rl rr hr0 =>
        rw [heightsOk_node_iff] at hokr
        obtain ⟨hreq, hokrl, hokrr⟩ := hokr
        rw [balancedB_node_iff] at hblr
        obtain ⟨hbb1, hbb2, hbcrl, hbcrr⟩ := hblr
        rw [get_balance_node] at hb2
        cases rl with
        | nil =>
            exfalso
            simp only [get_height_node, get_height_nil] at hb2
            omega
        | node drl u w hrl0 =>
            rw [heightsOk_node_iff] at hokrl
            obtain ⟨hrleq, hoku, hokw⟩ := hokrl
            rw [balancedB_node_iff] at hbcrl
            obtain ⟨hbu1, hbu2, hbcu, hbcw⟩ := hbcrl
            simp only [get_height_node, get_height_nil] at *
            simp only [right_rotate, left_rotate, get_height_node, get_height_nil]
            refine ⟨?_, ?_, ?_, ?_, ?_⟩
            · rw [heightsOk_node_iff]
              refine ⟨by simp only [get_height_node, get_height_nil], ?_, ?_⟩
              · rw [heightsOk_node_iff]
                exact ⟨rfl, hokl, hoku⟩
              · rw [heightsOk_node_iff]
                exact ⟨rfl, hokw, hokrr⟩
            · rw [balancedB_node_iff]
              refine ⟨?_, ?_, ?_, ?_⟩
              · try simp only [get_height_node, get_height_nil]
                omega
              · try simp only [get_height_node, get_height_nil]
                omega
              · rw [balancedB_node_iff]
                exact ⟨by omega, by omega, hbll, hbcu⟩
              · rw [balancedB_node_iff]
                exact ⟨by omega, by omega, hbcw, hbcrr⟩
            · try simp only [get_height_node, get_height_nil]
              omega
            · try simp only [get_height_node, get_height_nil]
              omega
            · try simp only [get_height_node, get_height_nil]
              omega
  · -- no rotation needed
    rw [get_balance_node] at h1 h2 h3 h4
    refine ⟨?_, ?_, ?_, ?_, ?_⟩
    · rw [heightsOk_node_iff]
      exact ⟨rfl, hokl, hokr⟩
    · rw [balancedB_node_iff]
      refine ⟨?_, ?_, hbll, hblr⟩
      · by_cases hA : get_balance l ≥ 0
        · try simp only [get_height_node, get_height_nil]
          omega
        · try simp only [get_height_node, get_height_nil]
          omega
      · by_cases hA : get_balance r ≤ 0
        · try simp only [get_height_node, get_height_nil]
          omega
        · try simp only [get_height_node, get_height_nil]
          omega
    · try simp only [get_height_node, get_height_nil]
      omega
    · try simp only [get_height_node, get_height_nil]
      omega
    · intro hz1 hz2
      rfl

/-- delete_recursive preserves correct cached heights and the balance
invariant, and lowers the (cached = true) height by at most one.  No
ordering hypothesis is needed: rebalancing is driven by heights alone. -/
theorem delete_recursive_avl (t : Tree) (v : Int)
    (hok : heightsOk t = true) (hbal : balancedB t = true) :
    heightsOk (delete_recursive t v) = true
      ∧ balancedB (delete_recursive t v) = true
      ∧ get_height (delete_recursive t v) ≤ get_height t
      ∧ get_height t ≤ get_height (delete_recursive t v) + 1 := by
  induction t generalizing v with
  | nil => exact ⟨rfl, rfl, le_refl _, Nat.le_succ _⟩
  | node d l r h ihl ihr =>
      rw [heightsOk_node_iff] at hok
      obtain ⟨heq, hokl, hokr⟩ := hok
      rw [balancedB_node_iff] at hbal
      obtain ⟨hbb1, hbb2, hbll, hblr⟩ := hbal
      rw [delete_recursive_node]
      by_cases hv1 : v < d
      · simp only [if_pos hv1]
        obtain ⟨ih1, ih2, ih3, ih4⟩ := ihl v hokl hbll
        obtain ⟨r1, r2, r3, r4, r5⟩ :=
          rebalanceDel_spec d (delete_recursive l v) r ih1 hokr ih2 hblr
            (by omega) (by omega)
        refine ⟨r1, r2, ?_, ?_⟩
        · subst heq
          simp only [get_height_node]
          omega
        · subst heq
          simp only [get_height_node]
          by_cases hc : get_height (delete_recursive l v) ≤ get_height r + 1
              ∧ get_height r ≤ get_height (delete_recursive l v) + 1
          · have hr5 := r5 hc.1 hc.2
            omega
          · omega
      · by_cases hv2 : v > d
        · simp only [if_neg hv1, if_pos hv2]
          obtain ⟨ih1, ih2, ih3, ih4⟩ := ihr v hokr hblr
          obtain ⟨r1, r2, r3, r4, r5⟩ :=
            rebalanceDel_spec d l (delete_recursive r v) hokl ih1 hbll ih2
              (by omega) (by omega)
          refine ⟨r1, r2, ?_, ?_⟩
          · subst heq
            simp only [get_height_node]
            omega
          · subst heq
            simp only [get_height_node]
            by_cases hc : get_height l ≤ get_height (delete_recursive r v) + 1
                ∧ get_height (delete_recursive r v) ≤ get_height l + 1
            · have hr5 := r5 hc.1 hc.2
              omega
            · omega
        · have hvd : v = d := by omega
          subst hvd
          simp only [if_neg hv1, if_neg hv2]
          cases l with
          | nil =>
              refine ⟨hokr, hblr, ?_, ?_⟩ <;>
                (subst heq
                 simp only [get_height_node, get_height_nil]
                 omega)
          | node dl ll lr hl0 =>
              cases r with
              | nil =>
                  refine ⟨hokl, hbll, ?_, ?_⟩ <;>
                    (subst heq
                     simp only [get_height_node, get_height_nil]
                     omega)
              | node dr rl rr hr0 =>
                  obtain ⟨ih1, ih2, ih3, ih4⟩ :=
                    ihr (minNodeData (.node dr rl rr hr0)) hokr hblr
                  simp only [get_height_node] at ih3 ih4 hbb1 hbb2
                  obtain ⟨r1, r2, r3, r4, r5⟩ :=
                    rebalanceDel_spec (minNodeData (.node dr rl rr hr0))
                      (.node dl ll lr hl0) _ hokl ih1 hbll ih2
                      (by simp only [get_height_node]; omega)
                      (by simp only [get_height_node]; omega)
                  simp only [get_height_node] at r3 r4 r5
                  refine ⟨r1, r2, ?_, ?_⟩
                  · subst heq
                    simp only [get_height_node]
                    omega
                  · subst heq
                    simp only [get_height_node]
                    by_cases hc : hl0
                          ≤ get_height (delete_recursive (.node dr rl rr hr0)
                            (minNodeData (.node dr rl rr hr0))) + 1
                        ∧ get_height (delete_recursive (.node dr rl rr hr0)
                            (minNodeData (.node dr rl rr hr0)))
                          ≤ hl0 + 1
                    · have hr5 := r5 hc.1 hc.2
                      omega
                    · omega

/-- The strict data-model ordering invariant implies the weak one. -/
theorem isBSTw_of_isBST (t : Tree) (hb : isBST t = true) : isBSTw t = true := by
  induction t with
  | nil => rfl
  | node d l r h ihl ihr =>
      simp only [isBST, Bool.and_eq_true, allTree_iff, decide_eq_true_eq]
        at hb
      obtain ⟨⟨⟨hal, har⟩, hbl⟩, hbr⟩ := hb
      rw [isBSTw_node_iff]
      exact ⟨fun x hx => le_of_lt (hal x hx), har, ihl hbl, ihr hbr⟩

/-- C5 counterexample for the claim as stated: the tree built by inserting
[5, 3, 5, 6] satisfies every data-model invariant (correct heights,
balance, strict BST ordering) and contains 3; deleting 3 triggers a left
rotation that places the second 5 into the left subtree of the first, so
the strict per-node ordering invariant of the data model no longer holds
afterwards. -/
theorem c5_counterexample :
    avlInv (insertAll [5, 3, 5, 6]) = true
      ∧ (3 : Int) ∈ inorder_traversal (insertAll [5, 3, 5, 6])
      ∧ isBST (delete (insertAll [5, 3, 5, 6]) 3).1 = false := by
  decide

/-- C5 (amended): on a tree satisfying the data-model invariants, deleting
a present value removes exactly one occurrence of it (the traversal length
drops by one), correct heights and the balance invariant still hold at
every node, and the ordering invariant holds in the weak per-node sense
(left ≤ value ≤ right, i.e. the in-order traversal stays non-decreasing);
only the strict form of the left-subtree ordering can be lost, when
duplicates are present. -/
theorem c5_delete_correct (t : Tree) (v : Int) (hinv : avlInv t = true)
    (hv : v ∈ inorder_traversal t) :
    (inorder_traversal (delete t v).1).length + 1
        = (inorder_traversal t).length
      ∧ contents (delete t v).1 = (contents t).erase v
      ∧ heightsOk (delete t v).1 = true
      ∧ balancedB (delete t v).1 = true
      ∧ isBSTw (delete t v).1 = true
      ∧ (inorder_traversal (delete t v).1).Sorted (· ≤ ·) := by
  have hinv2 : heightsOk t = true ∧ balancedB t = true ∧ isBST t = true := by
    simpa [avlInv, Bool.and_eq_true, and_assoc] using hinv
  obtain ⟨hok, hbal, hbst⟩ := hinv2
  have hbw := isBSTw_of_isBST t hbst
  have hne : t ≠ Tree.nil := by
    intro hnil
    subst hnil
    simp [inorder_traversal] at hv
  have hdel : (delete t v).1 = delete_recursive t v := by
    rw [delete, if_neg hne]
  obtain ⟨hb1, hc1⟩ := delete_recursive_spec t v hbw
  obtain ⟨ha1, ha2, _, _⟩ := delete_recursive_avl t v hok hbal
  rw [hdel]
  have hlen : (inorder_traversal (delete_recursive t v)).length + 1
      = (inorder_traversal t).length := by
    have h1 := congrArg Multiset.card hc1
    rw [Multiset.card_erase_of_mem ((mem_contents_iff v t).2 hv)] at h1
    simp only [contents, Multiset.coe_card, Nat.pred_eq_sub_one] at h1
    have hpos : 0 < (inorder_traversal t).length :=
      List.length_pos.2 (fun hemp => by rw [hemp] at hv; simp at hv)
    omega
  exact ⟨hlen, hc1, ha1, ha2, hb1, isBSTw_sorted _ hb1⟩

/-- Witness for c5_delete_correct at the spec's own deletion scenario:
delete 30 from the tree built by inserting [10, 20, 30, 40, 50, 25]. -/
theorem c5_delete_correct_witness :
    avlInv (insertAll [10, 20, 30, 40, 50, 25]) = true
      ∧ (30 : Int) ∈ inorder_traversal (insertAll [10, 20, 30, 40, 50, 25])
      ∧ (inorder_traversal
            (delete (insertAll [10, 20, 30, 40, 50, 25]) 30).1).length + 1
          = (inorder_traversal (insertAll [10, 20, 30, 40, 50, 25])).length
      ∧ balancedB (delete (insertAll [10, 20, 30, 40, 50, 25]) 30).1
          = true :=
  ⟨by decide, by decide,
   (c5_delete_correct (insertAll [10, 20, 30, 40, 50, 25]) 30 (by decide)
     (by decide)).1,
   (c5_delete_correct (insertAll [10, 20, 30, 40, 50, 25]) 30 (by decide)
     (by decide)).2.2.2.1⟩

/-- C9: refuted as stated.  Inserting the value 1 four times builds a
right chain of four nodes (the duplicate-insert code never rebalances an
all-equal chain), whose height 4 exceeds the claimed AVL bound
1.44 * log2(n + 2) - 0.328 = 1.44 * log2 6 - 0.328 < 4 for n = 4 nodes. -/
theorem c9_height_bound_violation :
    (inorder_traversal (run [Op.ins 1, Op.ins 1, Op.ins 1, Op.ins 1])).length
        = 4
      ∧ get_height (run [Op.ins 1, Op.ins 1, Op.ins 1, Op.ins 1]) = 4
      ∧ realHeight (run [Op.ins 1, Op.ins 1, Op.ins 1, Op.ins 1]) = 4
      ∧ (1.44 * Real.logb 2 (4 + 2) - 0.328 : ℝ) < 4 := by
  refine ⟨by decide, by decide, by decide, ?_⟩
  have h1 : Real.logb 2 (4 + 2) < 3 := by
    rw [Real.logb_lt_iff_lt_rpow (by norm_num) (by norm_num)]
    rw [show (3 : ℝ) = ((3 : ℕ) : ℝ) by norm_num, Real.rpow_natCast]
    norm_num
  have h2 := mul_lt_mul_of_pos_left h1 (by norm_num : (0 : ℝ) < 1.44)
  linarith

end AvlSpec
